import Mathlib

/-!
# Verification of the `cfx` R2 storage client core

A shallow embedding of the storage-client core of the repository
(`packages/cfx-r2/src/bucket.ts` and the account client), with proofs of the
specification's claims about it.

Strings are modelled as `List Char` (`JStr`), JavaScript objects used as
string-keyed records as insertion-ordered association lists, and the
signing / HTTP layer as explicit data (`SignRequest`, `HttpResponse`,
effect traces).
-/

/-- JavaScript strings, modelled as lists of characters. -/
abbrev JStr := List Char

deriving instance DecidableEq for Except

namespace Cfx

/-! ## JavaScript string primitives used by the source -/

/-- JS `s.endsWith(suffix)`. -/
def jsEndsWith (s suffix : JStr) : Bool := suffix.isSuffixOf s

/-- JS `s.startsWith(prefix)`. -/
def jsStartsWith (s pre : JStr) : Bool := pre.isPrefixOf s

/-- JS `s.slice(0, -2)`: everything but the last two characters
(the whole string shorter than two characters becomes empty). -/
def jsSliceToMinus2 (s : JStr) : JStr := s.take (s.length - 2)

/-- ASCII lowercasing of one character, as JS `toLowerCase` acts on the
ASCII range (header names are ASCII). -/
def lowerChar (c : Char) : Char :=
  if 65 ≤ c.toNat ∧ c.toNat ≤ 90 then Char.ofNat (c.toNat + 32) else c

/-- JS `s.toLowerCase()` on ASCII strings. -/
def jsToLower (s : JStr) : JStr := s.map lowerChar

/-! ## Content-type pattern matching (`presignedUploadUrl`, bucket.ts 122-129) -/

/-- The per-pattern content-type test of `presignedUploadUrl`:
`pattern.endsWith('/*') ? contentType.startsWith(pattern.slice(0,-2) + '/') :
contentType === pattern`. -/
def contentTypeMatches (pattern contentType : JStr) : Bool :=
  if jsEndsWith pattern ['/', '*'] then
    jsStartsWith contentType (jsSliceToMinus2 pattern ++ ['/'])
  else
    contentType == pattern

/-- `allowedContentTypes.some(pattern => ...)` of `presignedUploadUrl`. -/
def isContentTypeAllowed (patterns : List JStr) (contentType : JStr) : Bool :=
  patterns.any (fun p => contentTypeMatches p contentType)

/-! ## Metadata key normalization (bucket.ts 143-149 and 324-330) -/

/-- The metadata header-name prefix `x-amz-meta-`. -/
def metaPrefix : JStr := "x-amz-meta-".toList

/-- The ensure-prefixed transform applied to each metadata key by both
`presignedUploadUrl` and `uploadFile`:
`metaKey.startsWith('x-amz-meta-') ? metaKey : 'x-amz-meta-' + metaKey`. -/
def ensureMetaPrefix (k : JStr) : JStr :=
  if jsStartsWith k metaPrefix then k else metaPrefix ++ k

/-! ## The HTTP and signing layer

The network exchange is modelled by explicit data: an `HttpResponse` is what
`fetch` resolved to (status, status text, headers, body text), a
`FetchOutcome` additionally covers the thrown-exception case, and the
`aws4fetch` signer is an opaque function from sign requests to signed
requests.  Each operation returns the trace of signing/network effects it
performs alongside its result, so "no network call is made" is a statement
about the trace. -/

/-- HTTP request methods used by the client. -/
inductive HttpMethod where
  | get
  | put
  | del
  | head
  deriving DecidableEq

/-- A resolved `fetch` response: status, status text, headers and body text.
Header names compare case-insensitively via `jsHeaderGet` below. -/
structure HttpResponse where
  status : Nat
  statusText : JStr
  headers : List (JStr × JStr)
  bodyText : JStr
  deriving DecidableEq

/-- `response.ok` of the fetch API: status in the range 200-299. -/
def HttpResponse.ok (r : HttpResponse) : Bool :=
  decide (200 ≤ r.status) && decide (r.status ≤ 299)

/-- The outcome of a signing + network exchange: either a response was
resolved (of any status), or the exchange threw (network/transport failure,
including a failure inside the signing step). -/
inductive FetchOutcome where
  | success (response : HttpResponse)
  | failure
  deriving DecidableEq

/-- A request handed to `awsClient.sign`: target URL, method, headers, and
the signing mode (query-string signing with an expiry, or header signing). -/
structure SignRequest where
  url : JStr
  method : HttpMethod
  headers : List (JStr × JStr)
  signQuery : Bool
  expires : Option Nat
  deriving DecidableEq

/-- What `awsClient.sign` resolves to: a signed URL and a signed header set. -/
structure SignedRequest where
  url : JStr
  headers : List (JStr × JStr)
  deriving DecidableEq

/-- The signer capability (`aws4fetch`'s `AwsClient.sign`), opaque to the
client core. -/
abbrev Signer := SignRequest → SignedRequest

/-- One observable effect of an operation: a signing call or a network call. -/
inductive Effect where
  | sign (req : SignRequest)
  | netFetch (url : JStr) (method : HttpMethod)
  deriving DecidableEq

/-- Whether an effect is a network call. -/
def Effect.isNetworkCall : Effect → Bool
  | .netFetch _ _ => true
  | .sign _ => false

/-- The error taxonomy of the package: validation failures raised locally
before any network call, remote failures carrying the HTTP status and status
text, and transport failures (thrown by the network layer). -/
inductive CfxError where
  | validation (message : JStr)
  | remote (status : Nat) (statusText : JStr)
  | transport
  deriving DecidableEq

/-! ## JavaScript records and header lookup -/

/-- Assignment `m[k] = v` on a JS object used as a string-keyed record:
overwrite in place when the key exists, else append (insertion order). -/
def recordSet (m : List (JStr × JStr)) (k v : JStr) : List (JStr × JStr) :=
  if m.any (fun p => p.1 == k) then
    m.map (fun p => if p.1 == k then (k, v) else p)
  else m ++ [(k, v)]

/-- Lookup `m[k]` / association-list find on a JS record. -/
def recordGet (m : List (JStr × JStr)) (k : JStr) : Option JStr :=
  (m.find? (fun p => p.1 == k)).map (fun p => p.2)

/-- `response.headers.get(name)` of the fetch API: case-insensitive header
lookup (first matching header). -/
def jsHeaderGet (hs : List (JStr × JStr)) (name : JStr) : Option JStr :=
  (hs.find? (fun p => jsToLower p.1 == jsToLower name)).map (fun p => p.2)

/-! ## Shared header construction (bucket.ts 139-149 and 320-330) -/

/-- The `Content-Type` header name. -/
def contentTypeHeaderName : JStr := "Content-Type".toList

/-- The header record built identically by `presignedUploadUrl` (lines
139-149) and `uploadFile` (lines 320-330): `{'Content-Type': contentType}`,
then for each metadata entry in order, `headers[ensureMetaPrefix key] =
value`. -/
def buildUploadHeaders (contentType : JStr) (metadata : List (JStr × JStr)) :
    List (JStr × JStr) :=
  metadata.foldl (fun hs p => recordSet hs (ensureMetaPrefix p.1) p.2)
    [(contentTypeHeaderName, contentType)]

/-! ## Presigned URLs (bucket.ts 109-216) -/

/-- `PresignedUploadUrlOptions` of types.ts; optional fields are `Option`s
(`undefined` = `none`). -/
structure PresignedUploadUrlOptions where
  key : JStr
  contentType : JStr
  metadata : Option (List (JStr × JStr))
  expiresIn : Option Nat
  maxFileSize : Option Nat
  allowedContentTypes : Option (List JStr)
  deriving DecidableEq

/-- `PresignedUrlResult` of types.ts, together with the two advisory fields
spread into the upload result when truthy. -/
structure PresignedUrlResult where
  url : JStr
  key : JStr
  contentType : JStr
  expiresIn : Nat
  metadata : Option (List (JStr × JStr))
  maxFileSize : Option Nat
  allowedContentTypes : Option (List JStr)
  deriving DecidableEq

/-- The object URL `${baseUrl}/${name}/${key}`. -/
def bucketObjectUrl (baseUrl name key : JStr) : JStr :=
  baseUrl ++ ['/'] ++ name ++ ['/'] ++ key

/-- JS `array.join(sep)`. -/
def jsJoin (sep : JStr) : List JStr → JStr
  | [] => []
  | [x] => x
  | x :: y :: xs => x ++ sep ++ jsJoin sep (y :: xs)

/-- The validation message of bucket.ts line 133:
`Content type '${contentType}' is not allowed. Allowed types:
${allowedContentTypes.join(', ')}`. -/
def contentTypeNotAllowedMessage (contentType : JStr) (allowed : List JStr) :
    JStr :=
  "Content type '".toList ++ contentType ++
    "' is not allowed. Allowed types: ".toList ++
    jsJoin ", ".toList allowed

/-- `R2Bucket.presignedUploadUrl` (bucket.ts 109-176): validates the content
type against the allowed patterns, builds the upload headers, requests one
query-string-signed PUT signature with the effective expiry (default 86400),
and returns the signed URL with the echoed fields.  In the result,
`maxFileSize` is spread only when truthy (so `0` is omitted) while
`allowedContentTypes` is spread whenever present (an empty array is truthy
in JS); `metadata` echoes the original option. -/
def presignedUploadUrl (baseUrl name : JStr)
    (options : PresignedUploadUrlOptions) (signer : Signer) :
    List Effect × Except CfxError PresignedUrlResult :=
  let contentType := options.contentType
  let metadata := options.metadata.getD []
  let expiresIn := options.expiresIn.getD 86400
  let notAllowed : Bool :=
    match options.allowedContentTypes with
    | some patterns =>
        decide (0 < patterns.length) && !(isContentTypeAllowed patterns contentType)
    | none => false
  if notAllowed then
    ([], .error (.validation (contentTypeNotAllowedMessage contentType
        (options.allowedContentTypes.getD []))))
  else
    let headers := buildUploadHeaders contentType metadata
    let req : SignRequest :=
      { url := bucketObjectUrl baseUrl name options.key
        method := .put
        headers := headers
        signQuery := true
        expires := some expiresIn }
    let signed := signer req
    ([.sign req],
      .ok { url := signed.url
            key := options.key
            contentType := contentType
            expiresIn := expiresIn
            metadata := options.metadata
            maxFileSize := match options.maxFileSize with
              | some n => if n = 0 then none else some n
              | none => none
            allowedContentTypes := options.allowedContentTypes })

/-- `PresignedDownloadUrlOptions` of types.ts. -/
structure PresignedDownloadUrlOptions where
  expiresIn : Option Nat
  deriving DecidableEq

/-- `R2Bucket.presignedDownloadUrl` (bucket.ts 192-216): one
query-string-signed GET signature with the effective expiry (default 3600),
no headers bound, no network call; the result's content type is the empty
string. -/
def presignedDownloadUrl (baseUrl name key : JStr)
    (options : PresignedDownloadUrlOptions) (signer : Signer) :
    List Effect × PresignedUrlResult :=
  let expiresIn := options.expiresIn.getD 3600
  let req : SignRequest :=
    { url := bucketObjectUrl baseUrl name key
      method := .get
      headers := []
      signQuery := true
      expires := some expiresIn }
  let signed := signer req
  ([.sign req],
    { url := signed.url
      key := key
      contentType := []
      expiresIn := expiresIn
      metadata := none
      maxFileSize := none
      allowedContentTypes := none })

/-! ## Existence checks (bucket.ts 228-281) -/

/-- The body of the `try` block shared by `exists` (bucket.ts 228-249) and
`objectExists` (262-281): sign a HEAD request, fetch it, and return
`response.ok`; any throw along the way is a transport failure. -/
def existsAttempt (outcome : FetchOutcome) : Except CfxError Bool :=
  match outcome with
  | .success r => .ok r.ok
  | .failure => .error .transport

/-- `R2Bucket.exists`: the try/catch wrapper collapsing any failure of the
attempt to `false`. -/
def bucketExists (outcome : FetchOutcome) : Bool :=
  match existsAttempt outcome with
  | .ok b => b
  | .error _ => false

/-- `R2Bucket.objectExists`: identical try/catch wrapper against the object
path. -/
def objectExists (outcome : FetchOutcome) : Bool :=
  match existsAttempt outcome with
  | .ok b => b
  | .error _ => false

/-! ## deleteObject (bucket.ts 380-399) -/

/-- `R2Bucket.deleteObject`, given the DELETE response:
`if (!response.ok && response.status !== 404) throw`; otherwise returns. -/
def deleteObject (response : HttpResponse) : Except CfxError Unit :=
  if !response.ok && response.status != 404 then
    .error (.remote response.status response.statusText)
  else
    .ok ()

/-! ## getObject (bucket.ts 413-458) and uploadFile (300-367) -/

/-- JS `new Date(...)` as used by `getObject`: either constructed from a
header string (possibly an Invalid Date when the string does not parse) or
the call-time `new Date()`. -/
inductive JsDate where
  | fromString (s : JStr)
  | callTime
  deriving DecidableEq

/-- `s.replace(/"/g, '')`: remove every `"` character. -/
def stripQuotes (s : JStr) : JStr := s.filter (fun c => c ≠ '"')

/-- The whitespace class of JS `trim`/`parseInt` (ASCII whitespace plus the
common Unicode space characters). -/
def isJsWhitespace (c : Char) : Bool :=
  c = ' ' || c = '\t' || c = '\n' || c = '\r' ||
    c.toNat = 0x0B || c.toNat = 0x0C || c.toNat = 0xA0 ||
    c.toNat = 0x2028 || c.toNat = 0x2029 || c.toNat = 0xFEFF

/-- JS `s.trim()`. -/
def jsTrim (s : JStr) : JStr :=
  ((s.dropWhile isJsWhitespace).reverse.dropWhile isJsWhitespace).reverse

/-- The value of a decimal digit string. -/
def digitsToNat (ds : JStr) : Nat :=
  ds.foldl (fun acc c => acc * 10 + (c.toNat - 48)) 0

/-- JS `parseInt(s, 10)`: skip leading whitespace, an optional sign, then
the longest leading run of decimal digits; `none` models the `NaN` returned
when that run is empty. -/
def jsParseInt10 (s : JStr) : Option Int :=
  let s1 := s.dropWhile isJsWhitespace
  let signAndRest : Int × JStr :=
    match s1 with
    | '-' :: r => (-1, r)
    | '+' :: r => (1, r)
    | _ => (1, s1)
  let digits := signAndRest.2.takeWhile (fun c => c.isDigit)
  if digits.isEmpty then none
  else some (signAndRest.1 * (digitsToNat digits : Int))

/-- `R2Object` of types.ts as returned by `getObject` (without the live body
handle); `size : Option Int` models the JS number with `none` for `NaN`. -/
structure ObjectDescriptor where
  key : JStr
  contentType : Option JStr
  size : Option Int
  lastModified : JsDate
  etag : Option JStr
  metadata : Option (List (JStr × JStr))
  deriving DecidableEq

/-- The metadata-extraction loop of `getObject` (bucket.ts 439-447): scan all
response headers in order; for one whose lowercased name starts with
`x-amz-meta-`, strip that prefix (the `replace` of the first occurrence is
the prefix, since the name starts with it) and record the value. -/
def extractMetadata (headers : List (JStr × JStr)) : List (JStr × JStr) :=
  headers.foldl
    (fun acc p =>
      if jsStartsWith (jsToLower p.1) metaPrefix then
        recordSet acc ((jsToLower p.1).drop metaPrefix.length) p.2
      else acc)
    []

/-- `R2Bucket.getObject` (bucket.ts 413-458), given the GET response: non-2xx
fails with the remote error; on success the descriptor is extracted from the
response headers exactly as the source does (`||`/`?:` truthiness included). -/
def getObject (key : JStr) (response : HttpResponse) :
    Except CfxError ObjectDescriptor :=
  if !response.ok then
    .error (.remote response.status response.statusText)
  else
    let contentTypeHdr := jsHeaderGet response.headers "Content-Type".toList
    let contentLength := jsHeaderGet response.headers "Content-Length".toList
    let lastModifiedHdr := jsHeaderGet response.headers "Last-Modified".toList
    let etagHdr := jsHeaderGet response.headers "ETag".toList
    let metadata := extractMetadata response.headers
    .ok { key := key
          contentType := match contentTypeHdr with
            | some v => if v.isEmpty then none else some v
            | none => none
          size := match contentLength with
            | some v => if v.isEmpty then some 0 else jsParseInt10 v
            | none => some 0
          lastModified := match lastModifiedHdr with
            | some v => if v.isEmpty then .callTime else .fromString v
            | none => .callTime
          etag := match etagHdr with
            | some v =>
                if (stripQuotes v).isEmpty then none else some (stripQuotes v)
            | none => none
          metadata := if metadata.isEmpty then none else some metadata }

/-- `UploadFileOptions` of types.ts. -/
structure UploadFileOptions where
  contentType : JStr
  metadata : Option (List (JStr × JStr))
  deriving DecidableEq

/-- `UploadResult` of types.ts. -/
structure UploadResult where
  key : JStr
  contentType : JStr
  fileSize : Nat
  etag : Option JStr
  deriving DecidableEq

/-- `R2Bucket.uploadFile` (bucket.ts 300-367): builds the same
metadata-prefixed headers as `presignedUploadUrl`, requests a header-signed
PUT, transmits the body (modelled by its byte size, which is all the result
uses), fails with the remote error on non-2xx, and extracts the
quote-stripped ETag on success. -/
def uploadFile (baseUrl name key : JStr) (fileSize : Nat)
    (options : UploadFileOptions) (signer : Signer)
    (response : HttpResponse) : List Effect × Except CfxError UploadResult :=
  let contentType := options.contentType
  let metadata := options.metadata.getD []
  let headers := buildUploadHeaders contentType metadata
  let req : SignRequest :=
    { url := bucketObjectUrl baseUrl name key
      method := .put
      headers := headers
      signQuery := false
      expires := none }
  let signed := signer req
  let trace := [Effect.sign req, Effect.netFetch signed.url .put]
  if !response.ok then
    (trace, .error (.remote response.status response.statusText))
  else
    (trace,
      .ok { key := key
            contentType := contentType
            fileSize := fileSize
            etag := match jsHeaderGet response.headers "ETag".toList with
              | some v =>
                  if (stripQuotes v).isEmpty then none else some (stripQuotes v)
              | none => none })

end Cfx

namespace Cfx

/-! ## XML fragment parsing of the account client (`listBuckets`)

`parseBucketsXml` uses `xml.matchAll(/<Bucket>([\s\S]*?)<\/Bucket>/g)` and
`parseXmlTag` uses `xml.match(new RegExp("<" + tag + ">([^<]*)</" + tag +
">"))`.  Both regexes are first-occurrence scans over literal delimiters:
`matchAll` with a lazy body repeatedly takes the first `<Bucket>` and then
the first following `</Bucket>`; the tag regex takes each `<tag>` occurrence
in turn, reads the maximal `<`-free run after it, and succeeds when the
closing tag follows immediately (otherwise resumes at the next occurrence).
`splitFirst` below is that first-occurrence scan. -/

/-- Split `s` at the first occurrence of `pat`: `some (pre, post)` with
`s = pre ++ pat ++ post` and `pre` shortest, `none` when `pat` does not
occur in `s`. -/
def splitFirst (pat : JStr) : JStr → Option (JStr × JStr)
  | [] => if pat.isEmpty then some ([], []) else none
  | c :: rest =>
    if pat.isPrefixOf (c :: rest) then some ([], (c :: rest).drop pat.length)
    else
      match splitFirst pat rest with
      | some (pre, post) => some (c :: pre, post)
      | none => none

/-- `splitFirst` decomposes its input (also the termination measure of the
scanning recursions below). -/
theorem splitFirst_eq_append (pat : JStr) : ∀ s pre post : JStr,
    splitFirst pat s = some (pre, post) → s = pre ++ pat ++ post := by
  intro s
  induction s with
  | nil =>
    intro pre post h
    unfold splitFirst at h
    by_cases hp : pat.isEmpty
    · rw [if_pos hp] at h
      obtain ⟨h1, h2⟩ := Prod.mk.injEq .. ▸ Option.some.injEq .. ▸ h
      simp [← h1, ← h2, List.isEmpty_iff.mp hp]
    · rw [if_neg hp] at h
      exact absurd h (by simp)
  | cons c rest ih =>
    intro pre post h
    unfold splitFirst at h
    by_cases hp : pat.isPrefixOf (c :: rest)
    · rw [if_pos hp] at h
      obtain ⟨t, ht⟩ := List.isPrefixOf_iff_prefix.mp hp
      obtain ⟨h1, h2⟩ := Prod.mk.injEq .. ▸ Option.some.injEq .. ▸ h
      subst h1
      rw [← h2, ← ht, List.nil_append, List.drop_left]
    · rw [if_neg hp] at h
      cases hr : splitFirst pat rest with
      | some pp =>
        rw [hr] at h
        obtain ⟨h1, h2⟩ := Prod.mk.injEq .. ▸ Option.some.injEq .. ▸ h
        have := ih pp.1 pp.2 (by rw [hr])
        rw [← h1, ← h2, this]
        simp
      | none => rw [hr] at h; exact absurd h (by simp)

/-- The remainder returned by a successful `splitFirst` on a non-empty
pattern is strictly shorter than the input. -/
theorem splitFirst_post_length_lt (pat s pre post : JStr) (hpat : pat ≠ [])
    (h : splitFirst pat s = some (pre, post)) : post.length < s.length := by
  have hd := splitFirst_eq_append pat s pre post h
  have : 0 < pat.length := List.length_pos.mpr hpat
  rw [hd]
  simp only [List.length_append]
  omega

/-- The literal `<Bucket>` delimiter. -/
def openBucketTag : JStr := "<Bucket>".toList

/-- The literal `</Bucket>` delimiter. -/
def closeBucketTag : JStr := "</Bucket>".toList

/-- The `matchAll(/<Bucket>([\s\S]*?)<\/Bucket>/g)` loop of
`parseBucketsXml`, structurally recursive on a fuel argument (each scan step
consumes both delimiters, so the remainder is strictly shorter and an
initial fuel of the input's length can never run out). -/
def extractBucketBlocksAux : Nat → JStr → List JStr
  | 0, _ => []
  | fuel + 1, xml =>
    match splitFirst openBucketTag xml with
    | none => []
    | some (_, afterOpen) =>
      match splitFirst closeBucketTag afterOpen with
      | none => []
      | some (content, afterClose) =>
        content :: extractBucketBlocksAux fuel afterClose

/-- The captured inner contents of the `<Bucket>` blocks of `xml`, in
document order. -/
def extractBucketBlocks (xml : JStr) : List JStr :=
  extractBucketBlocksAux xml.length xml

/-- The literal `<tag>` delimiter. -/
def openTagOf (tag : JStr) : JStr := ['<'] ++ tag ++ ['>']

/-- The literal `</tag>` delimiter. -/
def closeTagOf (tag : JStr) : JStr := ['<', '/'] ++ tag ++ ['>']

/-- The first match of `<tag>([^<]*)</tag>` (the untrimmed capture): at each
`<tag>` occurrence in turn, the maximal `<`-free run after it matches when
the closing tag follows it immediately; otherwise the scan resumes after
that occurrence.  Structurally recursive on fuel, as above. -/
def findTagValueAux (tag : JStr) : Nat → JStr → Option JStr
  | 0, _ => none
  | fuel + 1, s =>
    match splitFirst (openTagOf tag) s with
    | none => none
    | some (_, rest) =>
      let content := rest.takeWhile (fun c => c ≠ '<')
      if (closeTagOf tag).isPrefixOf (rest.drop content.length) then
        some content
      else findTagValueAux tag fuel rest

/-- The first match of `<tag>([^<]*)</tag>` in `s` (the untrimmed capture). -/
def findTagValue (tag : JStr) (s : JStr) : Option JStr :=
  findTagValueAux tag s.length s

/-- `R2Client.parseXmlTag` (client.ts): the trimmed capture of the first
`<tag>([^<]*)</tag>` match, `none` when there is no match. -/
def parseXmlTag (xml tag : JStr) : Option JStr :=
  (findTagValue tag xml).map jsTrim

/-- `BucketInfo` of types.ts; `new Date(creationDateStr)` is modelled as
carrying the string it was constructed from. -/
structure BucketInfo where
  name : JStr
  creationDate : Option JStr
  location : JStr
  deriving DecidableEq

/-- The fixed location sentinel reported for every bucket. -/
def autoLocation : JStr := "auto".toList

/-- `R2Client.parseBucketsXml` (client.ts): for each `<Bucket>` block in
document order, extract the trimmed `<Name>` and `<CreationDate>` values and
push a descriptor when the name is truthy (present and non-empty); the
creation date is kept only when truthy. -/
def parseBucketsXml (xml : JStr) : List BucketInfo :=
  (extractBucketBlocks xml).filterMap (fun bucketXml =>
    let name := parseXmlTag bucketXml "Name".toList
    let creationDateStr := parseXmlTag bucketXml "CreationDate".toList
    match name with
    | some n =>
      if n.isEmpty then none
      else
        some { name := n
               creationDate := match creationDateStr with
                 | some cd => if cd.isEmpty then none else some cd
                 | none => none
               location := autoLocation }
    | none => none)

/-- `R2Client.listBuckets` (client.ts 82-104), given the GET response:
non-2xx fails with the remote error; on success the body is parsed by
`parseBucketsXml`. -/
def listBuckets (response : HttpResponse) : Except CfxError (List BucketInfo) :=
  if !response.ok then
    .error (.remote response.status response.statusText)
  else
    .ok (parseBucketsXml response.bodyText)

end Cfx

namespace Cfx

/-! ## Helper lemmas -/

/-- Slicing off the final `/*` of a pattern and re-appending `/` is the same
as cutting the pattern after its final `/`. -/
theorem sliceToMinus2_append_slash (t : JStr) :
    jsSliceToMinus2 (t ++ ['/', '*']) ++ ['/'] =
      (t ++ ['/', '*']).take ((t ++ ['/', '*']).length - 1) := by
  simp [jsSliceToMinus2, List.take_append_eq_append_take]

theorem isPrefixOf_append_self (pre s : JStr) : pre.isPrefixOf (pre ++ s) = true :=
  List.isPrefixOf_iff_prefix.mpr (List.prefix_append _ _)

theorem toNat_ofNat_valid (n : Nat) (h : n.isValidChar) :
    (Char.ofNat n).toNat = n := by
  unfold Char.ofNat
  rw [dif_pos h]
  rfl

/-- ASCII lowercasing never yields an uppercase ASCII letter. -/
theorem lowerChar_not_upper (c : Char) :
    ¬(65 ≤ (lowerChar c).toNat ∧ (lowerChar c).toNat ≤ 90) := by
  unfold lowerChar
  by_cases h : 65 ≤ c.toNat ∧ c.toNat ≤ 90
  · rw [if_pos h]
    have ht : (Char.ofNat (c.toNat + 32)).toNat = c.toNat + 32 :=
      toNat_ofNat_valid _ (Or.inl (by omega))
    rw [ht]
    omega
  · rw [if_neg h]
    exact h

theorem lowerChar_idem (c : Char) : lowerChar (lowerChar c) = lowerChar c := by
  have h := lowerChar_not_upper c
  conv_lhs => rw [lowerChar]
  rw [if_neg h]

theorem jsToLower_idem (s : JStr) : jsToLower (jsToLower s) = jsToLower s := by
  unfold jsToLower
  rw [List.map_map]
  exact List.map_congr_left (fun c _ => lowerChar_idem c)

theorem jsToLower_drop (s : JStr) (n : Nat) :
    jsToLower (s.drop n) = (jsToLower s).drop n := by
  unfold jsToLower
  exact List.map_drop lowerChar s n

/-- A `filterMap` whose function is an `if`-guarded `some` is a
`filter`-then-`map`. -/
theorem filterMap_eq_map_filter {α β : Type} (f : α → Option β) (p : α → Bool)
    (g : α → β) (h : ∀ b, f b = if p b then some (g b) else none)
    (l : List α) : l.filterMap f = (l.filter p).map g := by
  induction l with
  | nil => rfl
  | cons a t ih =>
    rw [List.filterMap_cons, List.filter_cons]
    by_cases hp : p a
    · rw [h a, if_pos hp, if_pos hp, List.map_cons, ih]
    · rw [h a, if_neg hp, if_neg hp, ih]

/-- A key of `recordSet m k v` is `k` or a key of `m`. -/
theorem mem_recordSet_fst (m : List (JStr × JStr)) (k v : JStr)
    (p : JStr × JStr) (hp : p ∈ recordSet m k v) :
    p.1 = k ∨ p.1 ∈ m.map Prod.fst := by
  unfold recordSet at hp
  by_cases hm : m.any (fun q => q.1 == k) = true
  · rw [if_pos hm] at hp
    obtain ⟨q, hq, hpq⟩ := List.mem_map.mp hp
    by_cases hqk : (q.1 == k) = true
    · rw [if_pos hqk] at hpq
      left
      rw [← hpq]
    · rw [if_neg hqk] at hpq
      right
      rw [← hpq]
      exact List.mem_map.mpr ⟨q, hq, rfl⟩
  · rw [if_neg hm] at hp
    rcases List.mem_append.mp hp with h | h
    · right
      exact List.mem_map.mpr ⟨p, h, rfl⟩
    · left
      rw [List.mem_singleton] at h
      rw [h]

/-- Every key the metadata-extraction fold accumulates is fully lowercase. -/
theorem extractMetadata_foldl_keys_lower (headers : List (JStr × JStr)) :
    ∀ acc : List (JStr × JStr), (∀ p ∈ acc, jsToLower p.1 = p.1) →
      ∀ p ∈ headers.foldl
          (fun acc p =>
            if jsStartsWith (jsToLower p.1) metaPrefix then
              recordSet acc ((jsToLower p.1).drop metaPrefix.length) p.2
            else acc) acc,
        jsToLower p.1 = p.1 := by
  induction headers with
  | nil =>
    intro acc hacc p hp
    rw [List.foldl_nil] at hp
    exact hacc p hp
  | cons q t ih =>
    intro acc hacc p hp
    rw [List.foldl_cons] at hp
    refine ih _ ?_ p hp
    by_cases hc : jsStartsWith (jsToLower q.1) metaPrefix = true
    · rw [if_pos hc]
      intro p' hp'
      rcases mem_recordSet_fst acc _ _ p' hp' with h | h
      · rw [h, ← jsToLower_drop, jsToLower_idem, jsToLower_drop]
      · obtain ⟨q', hq', hfst⟩ := List.mem_map.mp h
        rw [← hfst]
        exact hacc q' hq'
    · rw [if_neg hc]
      exact hacc

/-- The metadata-extraction fold adds nothing when no header name matches. -/
theorem extractMetadata_foldl_const : ∀ headers : List (JStr × JStr),
    (∀ p ∈ headers, jsStartsWith (jsToLower p.1) metaPrefix = false) →
    ∀ acc, headers.foldl
        (fun acc p =>
          if jsStartsWith (jsToLower p.1) metaPrefix then
            recordSet acc ((jsToLower p.1).drop metaPrefix.length) p.2
          else acc) acc = acc := by
  intro headers
  induction headers with
  | nil => intro _ acc; rfl
  | cons q t ih =>
    intro h acc
    rw [List.foldl_cons, if_neg (by rw [h q (List.mem_cons_self q t)]; simp)]
    exact ih (fun p hp => h p (List.mem_cons_of_mem q hp)) acc

/-- Keys of the extracted metadata record are fully lowercase. -/
theorem extractMetadata_keys_lower (headers : List (JStr × JStr)) :
    ∀ p ∈ extractMetadata headers, jsToLower p.1 = p.1 := by
  unfold extractMetadata
  exact extractMetadata_foldl_keys_lower headers []
    (fun p hp => absurd hp (List.not_mem_nil p))

/-- No matching header yields an empty metadata record. -/
theorem extractMetadata_eq_nil (headers : List (JStr × JStr))
    (h : ∀ p ∈ headers, jsStartsWith (jsToLower p.1) metaPrefix = false) :
    extractMetadata headers = [] := by
  unfold extractMetadata
  exact extractMetadata_foldl_const headers h []

/-- A list decomposes as a verified prefix plus the rest. -/
theorem eq_append_drop_of_isPrefixOf (pre s : JStr)
    (h : pre.isPrefixOf s = true) : s = pre ++ s.drop pre.length := by
  obtain ⟨t, rfl⟩ := List.isPrefixOf_iff_prefix.mp h
  rw [List.drop_left]

/-- `find?` on a cons whose head satisfies the predicate. -/
theorem entry_find?_cons_pos (p : JStr × JStr → Bool) (a : JStr × JStr)
    (l : List (JStr × JStr)) (h : p a = true) :
    (a :: l).find? p = some a := by
  simp [List.find?, h]

/-- `find?` on a cons whose head fails the predicate. -/
theorem entry_find?_cons_neg (p : JStr × JStr → Bool) (a : JStr × JStr)
    (l : List (JStr × JStr)) (h : p a = false) :
    (a :: l).find? p = l.find? p := by
  simp [List.find?, h]

/-- Overwriting a present key in place: the lookup finds the new value. -/
theorem find?_map_overwrite (k v : JStr) :
    ∀ m : List (JStr × JStr), m.any (fun q => q.1 == k) = true →
      recordGet (m.map (fun q => if q.1 == k then (k, v) else q)) k =
        some v := by
  intro m
  induction m with
  | nil => intro hm; simp at hm
  | cons q t ih =>
    intro hm
    rw [List.map_cons]
    cases hq : (q.1 == k) with
    | true =>
      rw [if_pos rfl]
      unfold recordGet
      rw [entry_find?_cons_pos (fun p => p.1 == k) (k, v) _ (by simp)]
      rfl
    | false =>
      rw [if_neg (by simp)]
      unfold recordGet
      rw [entry_find?_cons_neg (fun p => p.1 == k) q _ hq]
      exact ih (by rw [List.any_cons] at hm; simpa [hq] using hm)

/-- `m[k] = v` then `m[k]` reads back `v`. -/
theorem recordGet_recordSet_self (m : List (JStr × JStr)) (k v : JStr) :
    recordGet (recordSet m k v) k = some v := by
  unfold recordSet
  by_cases hm : m.any (fun q => q.1 == k) = true
  · rw [if_pos hm]
    exact find?_map_overwrite k v m hm
  · rw [if_neg hm]
    unfold recordGet
    rw [List.find?_append]
    have hnone : m.find? (fun p => p.1 == k) = none := by
      rw [List.find?_eq_none]
      intro x hx
      cases hxk : (x.1 == k) with
      | false => simp
      | true => exact absurd (List.any_eq_true.mpr ⟨x, hx, hxk⟩) hm
    rw [hnone, entry_find?_cons_pos (fun p => p.1 == k) (k, v) [] (by simp)]
    rfl

/-- `m[k'] = v` for another key leaves `m[k]` unchanged. -/
theorem recordGet_recordSet_ne (m : List (JStr × JStr)) (k' v k : JStr)
    (hne : k' ≠ k) : recordGet (recordSet m k' v) k = recordGet m k := by
  have hk'k : (k' == k) = false := beq_eq_false_iff_ne.mpr hne
  unfold recordSet
  by_cases hm : m.any (fun q => q.1 == k') = true
  · rw [if_pos hm]
    clear hm
    induction m with
    | nil => rfl
    | cons q t ih =>
      rw [List.map_cons]
      cases hq : (q.1 == k') with
      | true =>
        have hqk : (q.1 == k) = false := by
          rw [beq_iff_eq] at hq
          rw [hq]
          exact hk'k
        rw [if_pos rfl]
        unfold recordGet
        rw [entry_find?_cons_neg (fun p => p.1 == k) (k', v) _ (by simp [hk'k]),
          entry_find?_cons_neg (fun p => p.1 == k) q _ hqk]
        exact ih
      | false =>
        rw [if_neg (by simp)]
        cases hqk : (q.1 == k) with
        | true =>
          unfold recordGet
          rw [entry_find?_cons_pos (fun p => p.1 == k) q _ hqk,
            entry_find?_cons_pos (fun p => p.1 == k) q _ hqk]
        | false =>
          unfold recordGet
          rw [entry_find?_cons_neg (fun p => p.1 == k) q _ hqk,
            entry_find?_cons_neg (fun p => p.1 == k) q _ hqk]
          exact ih
  · rw [if_neg hm]
    unfold recordGet
    rw [List.find?_append,
      entry_find?_cons_neg (fun p => p.1 == k) (k', v) [] (by simp [hk'k]),
      List.find?_nil, Option.or_none]

/-- A fold whose every step preserves the lookup at `key` preserves it. -/
theorem recordGet_foldl_preserved
    (step : List (JStr × JStr) → JStr × JStr → List (JStr × JStr))
    (key : JStr) :
    ∀ t : List (JStr × JStr),
      (∀ acc q, q ∈ t → recordGet (step acc q) key = recordGet acc key) →
      ∀ acc, recordGet (t.foldl step acc) key = recordGet acc key := by
  intro t
  induction t with
  | nil => intro _ acc; rfl
  | cons q t' ih =>
    intro h acc
    rw [List.foldl_cons,
      ih (fun acc' q' hq' => h acc' q' (List.mem_cons_of_mem _ hq'))
        (step acc q),
      h acc q (List.mem_cons_self _ _)]

/-- The shared upload-header fold transmits every metadata entry under its
prefixed name, for any mapping with unprefixed, pairwise-distinct keys (JS
object keys are distinct by construction). -/
theorem buildUploadHeaders_transmits :
    ∀ (md acc : List (JStr × JStr)),
      (∀ p ∈ md, jsStartsWith p.1 metaPrefix = false) →
      (md.map Prod.fst).Nodup →
      ∀ p ∈ md,
        recordGet
          (md.foldl (fun hs p => recordSet hs (ensureMetaPrefix p.1) p.2) acc)
          (metaPrefix ++ p.1) = some p.2 := by
  intro md
  induction md with
  | nil => intro acc _ _ p hp; cases hp
  | cons e t ih =>
    intro acc hmd hnodup p hp
    rw [List.foldl_cons]
    have hek : ensureMetaPrefix e.1 = metaPrefix ++ e.1 := by
      unfold ensureMetaPrefix
      rw [if_neg (by rw [hmd e (List.mem_cons_self e t)]; simp)]
    rw [List.map_cons, List.nodup_cons] at hnodup
    rcases List.mem_cons.mp hp with rfl | hpt
    · have hpres : ∀ acc' q, q ∈ t →
          recordGet (recordSet acc' (ensureMetaPrefix q.1) q.2)
            (metaPrefix ++ p.1) = recordGet acc' (metaPrefix ++ p.1) := by
        intro acc' q hq
        apply recordGet_recordSet_ne
        have hq1 : ensureMetaPrefix q.1 = metaPrefix ++ q.1 := by
          unfold ensureMetaPrefix
          rw [if_neg (by rw [hmd q (List.mem_cons_of_mem p hq)]; simp)]
        rw [hq1]
        intro hcontra
        have hqe : q.1 = p.1 := List.append_cancel_left hcontra
        exact hnodup.1 (hqe ▸ List.mem_map.mpr ⟨q, hq, rfl⟩)
      rw [recordGet_foldl_preserved
          (fun hs p => recordSet hs (ensureMetaPrefix p.1) p.2)
          (metaPrefix ++ p.1) t hpres
          (recordSet acc (ensureMetaPrefix p.1) p.2),
        hek]
      exact recordGet_recordSet_self acc (metaPrefix ++ p.1) p.2
    · exact ih (recordSet acc (ensureMetaPrefix e.1) e.2)
        (fun p' hp' => hmd p' (List.mem_cons_of_mem e hp')) hnodup.2 p hpt

/-- `getObject`'s metadata scan recovers a transmitted header's value under
its stripped lowercase key, among arbitrary earlier headers and arbitrary
later headers that do not collide on that key (a later colliding header
overwrites, per the source's record assignment). -/
theorem extractMetadata_recovers (k v hdrName : JStr)
    (hs₁ hs₂ : List (JStr × JStr))
    (hcase : jsToLower hdrName = metaPrefix ++ k)
    (hsafe : ∀ p ∈ hs₂, jsToLower p.1 ≠ metaPrefix ++ k) :
    recordGet (extractMetadata (hs₁ ++ (hdrName, v) :: hs₂)) k = some v := by
  unfold extractMetadata
  rw [List.foldl_append, List.foldl_cons]
  have hpres : ∀ acc' q, q ∈ hs₂ →
      recordGet
        ((fun (acc : List (JStr × JStr)) (p : JStr × JStr) =>
          if jsStartsWith (jsToLower p.1) metaPrefix then
            recordSet acc ((jsToLower p.1).drop metaPrefix.length) p.2
          else acc) acc' q) k = recordGet acc' k := by
    intro acc' q hq
    dsimp only
    by_cases hg : jsStartsWith (jsToLower q.1) metaPrefix = true
    · rw [if_pos hg]
      apply recordGet_recordSet_ne
      intro hdk
      apply hsafe q hq
      rw [eq_append_drop_of_isPrefixOf metaPrefix (jsToLower q.1) hg, hdk]
    · rw [if_neg hg]
  rw [recordGet_foldl_preserved _ k hs₂ hpres _]
  dsimp only
  rw [if_pos (by rw [hcase]; exact isPrefixOf_append_self _ _), hcase,
    List.drop_left]
  exact recordGet_recordSet_self _ k v

/-- The `Content-Type` header name is never a metadata header name. -/
theorem contentTypeHeaderName_beq_prefixed (k : JStr) :
    (contentTypeHeaderName == metaPrefix ++ k) = false := by
  have h1 : contentTypeHeaderName = 'C' :: "ontent-Type".toList := by decide
  have h2 : metaPrefix = 'x' :: "-amz-meta-".toList := by decide
  rw [beq_eq_false_iff_ne]
  intro h
  rw [h1, h2, List.cons_append] at h
  injection h with hc _
  exact absurd hc (by decide)

end Cfx

namespace Cfx

/-! ## Claim theorems -/

/-- **C1.** For every pattern and content type, the content-type check of
`presignedUploadUrl` succeeds for a pattern ending in `/*` exactly when the
content type starts with the pattern's prefix up to and including the `/`
(the pattern with its trailing `*` removed), and for every other pattern
exactly when the content type equals the pattern as a string. -/
theorem contentType_check_rule (pattern ct : JStr) :
    (jsEndsWith pattern ['/', '*'] = true →
      (contentTypeMatches pattern ct = true ↔
        jsStartsWith ct (pattern.take (pattern.length - 1)) = true)) ∧
    (jsEndsWith pattern ['/', '*'] = false →
      (contentTypeMatches pattern ct = true ↔ ct = pattern)) := by
  constructor
  · intro h
    obtain ⟨t, ht⟩ := List.isSuffixOf_iff_suffix.mp h
    subst ht
    rw [contentTypeMatches, if_pos (by exact h), sliceToMinus2_append_slash]
  · intro h
    rw [contentTypeMatches, if_neg (by simp [h])]
    exact beq_iff_eq

/-- **C1 witness.** Applying the rule to `image/*` against `image/png`. -/
theorem contentType_check_rule_witness :
    contentTypeMatches "image/*".toList "image/png".toList =
      jsStartsWith "image/png".toList
        ("image/*".toList.take ("image/*".toList.length - 1)) := by
  have h := (contentType_check_rule "image/*".toList "image/png".toList).1
    (by decide)
  revert h
  decide

/-- Every element of a list is a contiguous part of its JS `join`. -/
theorem infix_of_mem_jsJoin (sep p : JStr) (l : List JStr) (hp : p ∈ l) :
    p <:+: jsJoin sep l := by
  induction l with
  | nil => cases hp
  | cons a t ih =>
    cases t with
    | nil =>
      rw [List.mem_singleton] at hp
      subst hp
      exact List.infix_refl p
    | cons b t' =>
      rcases List.mem_cons.mp hp with h | h
      · subst h
        have h1 : p <+: p ++ (sep ++ jsJoin sep (b :: t')) :=
          List.prefix_append _ _
        simpa [jsJoin, List.append_assoc] using h1.isInfix
      · exact (ih h).trans (List.suffix_append (a ++ sep) _).isInfix

/-- **C2.** A call to `presignedUploadUrl` with a non-empty
`allowedContentTypes` list none of whose patterns match the supplied content
type fails with the validation error whose message names the rejected
content type and every allowed pattern, and performs no signing and no
network call (its effect trace is empty, whatever the signer is). -/
theorem presignedUploadUrl_disallowed (baseUrl name : JStr)
    (options : PresignedUploadUrlOptions) (signer : Signer)
    (patterns : List JStr)
    (hpat : options.allowedContentTypes = some patterns)
    (hne : patterns ≠ [])
    (hfail : isContentTypeAllowed patterns options.contentType = false) :
    presignedUploadUrl baseUrl name options signer =
      ([], .error (.validation
        (contentTypeNotAllowedMessage options.contentType patterns))) ∧
    options.contentType <:+:
      contentTypeNotAllowedMessage options.contentType patterns ∧
    ∀ p ∈ patterns,
      p <:+: contentTypeNotAllowedMessage options.contentType patterns := by
  have hlen : 0 < patterns.length := List.length_pos.mpr hne
  refine ⟨?_, ?_, ?_⟩
  · simp [presignedUploadUrl, hpat, hfail, hlen]
  · exact ⟨"Content type '".toList,
      "' is not allowed. Allowed types: ".toList ++ jsJoin ", ".toList patterns,
      by simp [contentTypeNotAllowedMessage, List.append_assoc]⟩
  · intro p hp
    have h1 := infix_of_mem_jsJoin ", ".toList p patterns hp
    have h2 : jsJoin ", ".toList patterns <:+
        contentTypeNotAllowedMessage options.contentType patterns :=
      ⟨"Content type '".toList ++ options.contentType ++
        "' is not allowed. Allowed types: ".toList,
        by simp [contentTypeNotAllowedMessage, List.append_assoc]⟩
    exact h1.trans h2.isInfix

/-- **C2 witness.** `application/pdf` against `['image/*']`: the validation
error, with an empty effect trace. -/
theorem presignedUploadUrl_disallowed_witness :
    presignedUploadUrl [] []
      { key := "a.png".toList
        contentType := "application/pdf".toList
        metadata := none
        expiresIn := none
        maxFileSize := none
        allowedContentTypes := some ["image/*".toList] }
      (fun _ => { url := [], headers := [] }) =
      ([], .error (.validation (contentTypeNotAllowedMessage
        "application/pdf".toList ["image/*".toList]))) :=
  (presignedUploadUrl_disallowed [] [] _ _ ["image/*".toList] rfl
    (by decide) (by decide)).1

/-- **C4.** `exists` and `objectExists` agree, never raise (they are total
boolean functions of the exchange's outcome, a thrown exception included),
and return `true` exactly when the HEAD exchange resolved to a response with
a 2xx status. -/
theorem existence_checks_never_raise (outcome : FetchOutcome) :
    bucketExists outcome = objectExists outcome ∧
    (bucketExists outcome = true ↔
      ∃ r, outcome = .success r ∧ 200 ≤ r.status ∧ r.status ≤ 299) := by
  cases outcome with
  | success r =>
    refine ⟨rfl, ?_⟩
    simp [bucketExists, existsAttempt, HttpResponse.ok]
  | failure =>
    refine ⟨rfl, ?_⟩
    simp [bucketExists, existsAttempt]

/-- **C5.** `deleteObject` completes without raising exactly when the DELETE
response status is 2xx or exactly 404, and fails with the remote error
carrying the status code and status text for every other status. -/
theorem deleteObject_status_contract (r : HttpResponse) :
    (deleteObject r = .ok () ↔
      (200 ≤ r.status ∧ r.status ≤ 299) ∨ r.status = 404) ∧
    (deleteObject r = .error (.remote r.status r.statusText) ↔
      ¬((200 ≤ r.status ∧ r.status ≤ 299) ∨ r.status = 404)) := by
  have hcond : (!r.ok && r.status != 404) = true ↔
      ¬((200 ≤ r.status ∧ r.status ≤ 299) ∨ r.status = 404) := by
    simp [HttpResponse.ok, not_or, Decidable.not_and_iff_or_not]
    omega
  unfold deleteObject
  by_cases h : (200 ≤ r.status ∧ r.status ≤ 299) ∨ r.status = 404
  · rw [if_neg (by simp [hcond, h])]
    simp [h]
  · rw [if_pos (hcond.mpr h)]
    simp [h]

/-- **C9.** `presignedUploadUrl` uses expiry 86400 when `expiresIn` is not
supplied and echoes the effective expiry in its result; `presignedDownloadUrl`
uses expiry 3600 when not supplied, performs no network call (its effect
trace holds no fetch, for every option set), and always returns an empty
content type. -/
theorem presign_default_expiries (baseUrl name key : JStr)
    (options : PresignedUploadUrlOptions)
    (dlDefault dlAny : PresignedDownloadUrlOptions) (signer : Signer)
    (tr : List Effect) (res : PresignedUrlResult)
    (hexp : options.expiresIn = none)
    (hdl : dlDefault.expiresIn = none)
    (hok : presignedUploadUrl baseUrl name options signer = (tr, .ok res)) :
    res.expiresIn = 86400 ∧
    (presignedDownloadUrl baseUrl name key dlDefault signer).2.expiresIn =
      3600 ∧
    (presignedDownloadUrl baseUrl name key dlAny signer).2.contentType = [] ∧
    (presignedDownloadUrl baseUrl name key dlAny signer).1.all
      (fun e => !e.isNetworkCall) = true := by
  refine ⟨?_, ?_, ?_, ?_⟩
  · simp only [presignedUploadUrl, hexp, Option.getD_none] at hok
    split at hok
    · simp at hok
    · rw [Prod.mk.injEq] at hok
      rw [Except.ok.injEq] at hok
      rw [← hok.2]
  · simp [presignedDownloadUrl, hdl]
  · rfl
  · rfl

/-- **C9 witness.** The defaults at concrete inputs. -/
theorem presign_default_expiries_witness :
    ({ url := [], key := [], contentType := [], expiresIn := 86400,
       metadata := none, maxFileSize := none, allowedContentTypes := none } :
        PresignedUrlResult).expiresIn = 86400 ∧
    (presignedDownloadUrl [] [] [] { expiresIn := none }
      (fun _ => { url := [], headers := [] })).2.expiresIn = 3600 ∧
    (presignedDownloadUrl [] [] [] { expiresIn := some 5 }
      (fun _ => { url := [], headers := [] })).2.contentType = [] ∧
    (presignedDownloadUrl [] [] [] { expiresIn := some 5 }
      (fun _ => { url := [], headers := [] })).1.all
      (fun e => !e.isNetworkCall) = true :=
  presign_default_expiries [] [] []
    { key := [], contentType := [], metadata := none, expiresIn := none,
      maxFileSize := none, allowedContentTypes := none }
    { expiresIn := none } { expiresIn := some 5 }
    (fun _ => { url := [], headers := [] })
    [.sign { url := ['/', '/'], method := .put,
             headers := [(contentTypeHeaderName, [])], signQuery := true,
             expires := some 86400 }]
    { url := [], key := [], contentType := [], expiresIn := 86400,
      metadata := none, maxFileSize := none, allowedContentTypes := none }
    rfl rfl rfl

/-- **C3.** The metadata-key normalization used by `presignedUploadUrl` and
`uploadFile` is idempotent: applying the ensure-prefixed transform twice
yields the same header name as applying it once. -/
theorem ensureMetaPrefix_idem (k : JStr) :
    ensureMetaPrefix (ensureMetaPrefix k) = ensureMetaPrefix k := by
  unfold ensureMetaPrefix
  by_cases h : jsStartsWith k metaPrefix
  · simp [h]
  · simp only [h, Bool.false_eq_true, if_false]
    rw [if_pos]
    exact (isPrefixOf_append_self _ _)

/-- **C6 counterexample.** The body `<Bucket><Name></Name></Bucket>` is one
`<Bucket>` block that does contain a (well-formed, empty) `<Name>` tag, yet
`parseBucketsXml` returns no descriptor for it: the empty extracted name is
falsy and the block is skipped. -/
theorem parseBucketsXml_empty_name_counterexample :
    extractBucketBlocks "<Bucket><Name></Name></Bucket>".toList =
      ["<Name></Name>".toList] ∧
    parseXmlTag "<Name></Name>".toList "Name".toList = some [] ∧
    parseBucketsXml "<Bucket><Name></Name></Bucket>".toList = [] := by
  refine ⟨by decide, by decide, by decide⟩

/-- **C6 (amended).** For every successful ListBuckets response,
`listBuckets` returns one descriptor per `<Bucket>` block whose extracted,
trimmed `<Name>` content is non-empty, in document order, each with the
fixed location `auto`; blocks lacking `<Name>` (or whose name trims to
empty) are skipped rather than raising, and a body with two well-formed
blocks yields exactly two descriptors in document order. -/
theorem listBuckets_descriptors (r : HttpResponse) (infos : List BucketInfo)
    (hok : listBuckets r = .ok infos) :
    infos =
      ((extractBucketBlocks r.bodyText).filter
          (fun b => !((parseXmlTag b "Name".toList).getD []).isEmpty)).map
        (fun b =>
          { name := (parseXmlTag b "Name".toList).getD []
            creationDate :=
              match parseXmlTag b "CreationDate".toList with
              | some cd => if cd.isEmpty then none else some cd
              | none => none
            location := autoLocation }) ∧
    (∀ info ∈ infos, info.location = autoLocation) ∧
    parseBucketsXml
        "<Bucket><Name>alpha</Name></Bucket><Bucket><Name>beta</Name></Bucket>".toList =
      [{ name := "alpha".toList, creationDate := none,
         location := autoLocation },
       { name := "beta".toList, creationDate := none,
         location := autoLocation }] := by
  have hinfos : infos = parseBucketsXml r.bodyText := by
    unfold listBuckets at hok
    split at hok
    · simp at hok
    · rw [Except.ok.injEq] at hok
      exact hok.symm
  have hshape : infos =
      ((extractBucketBlocks r.bodyText).filter
          (fun b => !((parseXmlTag b "Name".toList).getD []).isEmpty)).map
        (fun b =>
          { name := (parseXmlTag b "Name".toList).getD []
            creationDate :=
              match parseXmlTag b "CreationDate".toList with
              | some cd => if cd.isEmpty then none else some cd
              | none => none
            location := autoLocation }) := by
    rw [hinfos]
    unfold parseBucketsXml
    apply filterMap_eq_map_filter
    intro b
    cases hn : parseXmlTag b "Name".toList with
    | none => simp
    | some n =>
      cases he : n.isEmpty with
      | true => simp [he]
      | false => simp [he]
  refine ⟨hshape, ?_, by decide⟩
  intro info hmem
  rw [hshape] at hmem
  obtain ⟨b, hb, rfl⟩ := List.mem_map.mp hmem
  rfl

/-- **C6 witness.** The two-block scenario, through the theorem at a
concrete successful response. -/
theorem listBuckets_descriptors_witness :
    parseBucketsXml
        "<Bucket><Name>alpha</Name></Bucket><Bucket><Name>beta</Name></Bucket>".toList =
      [{ name := "alpha".toList, creationDate := none,
         location := autoLocation },
       { name := "beta".toList, creationDate := none,
         location := autoLocation }] :=
  (listBuckets_descriptors
    { status := 200, statusText := [], headers := [],
      bodyText :=
        "<Bucket><Name>alpha</Name></Bucket><Bucket><Name>beta</Name></Bucket>".toList }
    [{ name := "alpha".toList, creationDate := none,
       location := autoLocation },
     { name := "beta".toList, creationDate := none,
       location := autoLocation }]
    (by decide)).2.2

/-- **C7 counterexample.** A successful response with `Content-Length: abc`
and `Last-Modified: garbage` yields `size = NaN` (not the claimed default
`0`) and `lastModified = new Date("garbage")`, an Invalid Date (not the
claimed call time). -/
theorem getObject_unparsable_headers_counterexample :
    (getObject []
        { status := 200, statusText := [],
          headers := [("Content-Length".toList, "abc".toList),
                      ("Last-Modified".toList, "garbage".toList)],
          bodyText := [] }).map (fun d => (d.size, d.lastModified)) =
      .ok (none, .fromString "garbage".toList) ∧
    (none : Option Int) ≠ some 0 ∧
    JsDate.fromString "garbage".toList ≠ JsDate.callTime := by
  refine ⟨by decide, by decide, by decide⟩

/-- **C7 (amended).** For every successful `getObject` response: the etag is
the ETag header with all quotes stripped (absent when the header is absent
or strips to empty); the size is the Content-Length header run through
`parseInt(_, 10)` when present and non-empty (`NaN`, modelled `none`, when
unparsable) and `0` when absent or empty; the last-modified is the date
constructed from the Last-Modified header when present and non-empty
(possibly an Invalid Date) and the call time otherwise. -/
theorem getObject_header_extraction (key : JStr) (r : HttpResponse)
    (d : ObjectDescriptor) (hok : getObject key r = .ok d) :
    (jsHeaderGet r.headers "Content-Length".toList = none →
      d.size = some 0) ∧
    (∀ v, jsHeaderGet r.headers "Content-Length".toList = some v →
      d.size = if v.isEmpty then some 0 else jsParseInt10 v) ∧
    (jsHeaderGet r.headers "Last-Modified".toList = none →
      d.lastModified = .callTime) ∧
    (∀ v, jsHeaderGet r.headers "Last-Modified".toList = some v →
      d.lastModified = if v.isEmpty then .callTime else .fromString v) ∧
    (jsHeaderGet r.headers "ETag".toList = none → d.etag = none) ∧
    (∀ v, jsHeaderGet r.headers "ETag".toList = some v →
      d.etag =
        if (stripQuotes v).isEmpty then none else some (stripQuotes v)) := by
  unfold getObject at hok
  split at hok
  · simp at hok
  · rw [Except.ok.injEq] at hok
    subst hok
    refine ⟨?_, ?_, ?_, ?_, ?_, ?_⟩
    · intro h; simp only [h]
    · intro v h; simp only [h]
    · intro h; simp only [h]
    · intro v h; simp only [h]
    · intro h; simp only [h]
    · intro v h; simp only [h]

/-- **C7 witness.** Headers `ETag: "abc123"` and `Content-Length: 42` yield
etag `abc123` (quotes stripped) and size `42`. -/
theorem getObject_header_extraction_witness :
    ({ key := [], contentType := none, size := some 42,
       lastModified := .callTime, etag := some "abc123".toList,
       metadata := none } : ObjectDescriptor).etag = some "abc123".toList ∧
    ({ key := [], contentType := none, size := some 42,
       lastModified := .callTime, etag := some "abc123".toList,
       metadata := none } : ObjectDescriptor).size = some 42 := by
  have h := getObject_header_extraction []
    { status := 200, statusText := [],
      headers := [("ETag".toList, "\"abc123\"".toList),
                  ("Content-Length".toList, "42".toList)],
      bodyText := [] }
    { key := [], contentType := none, size := some 42,
      lastModified := .callTime, etag := some "abc123".toList,
      metadata := none }
    (by decide)
  refine ⟨?_, ?_⟩
  · rw [h.2.2.2.2.2 "\"abc123\"".toList (by decide)]
    decide
  · rw [h.2.1 "42".toList (by decide)]
    decide

/-- **C8.** Metadata round-trips. For every metadata mapping with
unprefixed, pairwise-distinct keys (what a JS object supplies), every entry
is transmitted by the shared upload-header construction of `uploadFile` and
`presignedUploadUrl` under the header name `x-amz-meta-` ++ key; and for
every successful `getObject` response whose headers contain — among
arbitrary other headers — any case variant of such a metadata header (no
later header colliding on the same lowercased name), the descriptor carries
the reconstructed mapping and the value is retrievable under the same
unprefixed lowercase key. -/
theorem metadata_roundtrip (ct k v hdrName okey : JStr)
    (md hs₁ hs₂ : List (JStr × JStr)) (r : HttpResponse)
    (d : ObjectDescriptor)
    (hmd : ∀ p ∈ md, jsStartsWith p.1 metaPrefix = false)
    (hnodup : (md.map Prod.fst).Nodup)
    (_hkv : (k, v) ∈ md)
    (_hlow : jsToLower k = k)
    (hcase : jsToLower hdrName = metaPrefix ++ k)
    (hsafe : ∀ p ∈ hs₂, jsToLower p.1 ≠ metaPrefix ++ k)
    (hresp : r.headers = hs₁ ++ (hdrName, v) :: hs₂)
    (hok : getObject okey r = .ok d) :
    (∀ p ∈ md,
      recordGet (buildUploadHeaders ct md) (metaPrefix ++ p.1) = some p.2) ∧
    d.metadata = some (extractMetadata r.headers) ∧
    recordGet (extractMetadata r.headers) k = some v := by
  have hrec : recordGet (extractMetadata r.headers) k = some v := by
    rw [hresp]
    exact extractMetadata_recovers k v hdrName hs₁ hs₂ hcase hsafe
  have hne : (extractMetadata r.headers).isEmpty = false := by
    cases hx : extractMetadata r.headers with
    | nil =>
      rw [hx] at hrec
      simp [recordGet] at hrec
    | cons a t => rfl
  refine ⟨?_, ?_, hrec⟩
  · intro p hp
    unfold buildUploadHeaders
    exact buildUploadHeaders_transmits md [(contentTypeHeaderName, ct)]
      hmd hnodup p hp
  · unfold getObject at hok
    split at hok
    · simp at hok
    · rw [Except.ok.injEq] at hok
      subst hok
      simp [hne]

/-- **C8 witness.** `{ owner: alice, team: eng }` uploaded; the server
echoes `X-Amz-Meta-Owner` among other headers; `alice` is recovered under
`owner`. -/
theorem metadata_roundtrip_witness :
    recordGet
      (buildUploadHeaders "text/plain".toList
        [("owner".toList, "alice".toList), ("team".toList, "eng".toList)])
      (metaPrefix ++ "owner".toList) = some "alice".toList ∧
    recordGet
      (extractMetadata
        [("Content-Type".toList, "text/plain".toList),
         ("X-Amz-Meta-Owner".toList, "alice".toList),
         ("X-Amz-Meta-Team".toList, "eng".toList)])
      "owner".toList = some "alice".toList := by
  have h := metadata_roundtrip "text/plain".toList "owner".toList
    "alice".toList "X-Amz-Meta-Owner".toList "o".toList
    [("owner".toList, "alice".toList), ("team".toList, "eng".toList)]
    [("Content-Type".toList, "text/plain".toList)]
    [("X-Amz-Meta-Team".toList, "eng".toList)]
    { status := 200, statusText := [],
      headers := [("Content-Type".toList, "text/plain".toList),
                  ("X-Amz-Meta-Owner".toList, "alice".toList),
                  ("X-Amz-Meta-Team".toList, "eng".toList)],
      bodyText := [] }
    { key := "o".toList, contentType := some "text/plain".toList,
      size := some 0, lastModified := .callTime, etag := none,
      metadata := some [("owner".toList, "alice".toList),
                        ("team".toList, "eng".toList)] }
    (by decide) (by decide) (by decide) (by decide) (by decide)
    (by decide) rfl (by decide)
  exact ⟨h.1 ("owner".toList, "alice".toList) (by decide), h.2.2⟩

/-- **C10.** For every successful `getObject` response with no header whose
lowercased name starts with `x-amz-meta-`, the descriptor's metadata is
absent (not an empty mapping); and every key of a returned metadata mapping
is fully lowercase. -/
theorem getObject_metadata_shape (key : JStr) (r : HttpResponse)
    (d : ObjectDescriptor) (hok : getObject key r = .ok d) :
    ((∀ p ∈ r.headers, jsStartsWith (jsToLower p.1) metaPrefix = false) →
      d.metadata = none) ∧
    (∀ m, d.metadata = some m → ∀ p ∈ m, jsToLower p.1 = p.1) := by
  unfold getObject at hok
  split at hok
  · simp at hok
  · rw [Except.ok.injEq] at hok
    subst hok
    constructor
    · intro hnone
      simp [extractMetadata_eq_nil r.headers hnone]
    · intro m hm p hp
      by_cases he : (extractMetadata r.headers).isEmpty = true
      · simp [he] at hm
      · simp only [Bool.not_eq_true] at he
        simp only [he, Bool.false_eq_true, if_false, Option.some.injEq] at hm
        subst hm
        exact extractMetadata_keys_lower r.headers p hp

/-- **C10 witness.** A successful response with no metadata headers yields
an absent metadata field. -/
theorem getObject_metadata_shape_witness :
    ({ key := [], contentType := none, size := some 0,
       lastModified := .callTime, etag := none, metadata := none } :
        ObjectDescriptor).metadata = none :=
  (getObject_metadata_shape []
    { status := 200, statusText := [], headers := [], bodyText := [] }
    { key := [], contentType := none, size := some 0,
      lastModified := .callTime, etag := none, metadata := none }
    (by decide)).1 (by simp)

end Cfx
